import Mathlib

/-!
Verification of the Session Transport and Live Sync subsystem of the
openclaw-chat repository (src-tauri/src: openclaw.rs, watcher.rs, ssh.rs,
lib.rs) against its natural-language specification.

The embedding works over lists of characters.  The on-disk JSONL codec is
modelled by an explicit JSON value type together with a serializer (mirroring
what serde_json's to_string emits for the value built in append_message) and
a deserializer (mirroring serde_json's from_str composed with the derived
Deserialize instances of the record structs in openclaw.rs).  Byte positions
use UTF-8 sizes, as in the Rust source, via Char.utf8Size.
-/

namespace OpenclawChat

/-- A chat message, as in openclaw.rs (struct ChatMessage). -/
structure ChatMessage where
  role : String
  content : String
deriving DecidableEq, Repr

/-- JSON values, the shape serde_json::Value takes for the records this
repository reads and writes. -/
inductive Json where
  | null
  | bool (b : Bool)
  | num (n : Int)
  | str (s : String)
  | arr (elems : List Json)
  | obj (fields : List (String × Json))

/-- Lowercase hexadecimal digit character for a value below 16. -/
def hexChar (n : Nat) : Char :=
  if n < 10 then Char.ofNat (48 + n) else Char.ofNat (87 + n)

/-- serde_json escaping of one character inside a JSON string literal:
quote and backslash get a backslash escape, the five control characters with
short names use those, any other control character below 0x20 becomes a
four-digit \u escape, and everything else is emitted verbatim. -/
def escapeChar (c : Char) : List Char :=
  if c = '"' then ['\\', '"']
  else if c = '\\' then ['\\', '\\']
  else if c = '\n' then ['\\', 'n']
  else if c = '\r' then ['\\', 'r']
  else if c = '\t' then ['\\', 't']
  else if c = Char.ofNat 8 then ['\\', 'b']
  else if c = Char.ofNat 12 then ['\\', 'f']
  else if c.toNat < 32 then
    ['\\', 'u', '0', '0', hexChar (c.toNat / 16), hexChar (c.toNat % 16)]
  else [c]

/-- The characters of a serialized JSON string literal, quotes included. -/
def writeStr (s : String) : List Char :=
  '"' :: (s.data.flatMap escapeChar ++ ['"'])

mutual

/-- Compact serialization of a JSON value, as serde_json::to_string emits it
(no whitespace). -/
def writeJson : Json → List Char
  | Json.null => ['n', 'u', 'l', 'l']
  | Json.bool true => ['t', 'r', 'u', 'e']
  | Json.bool false => ['f', 'a', 'l', 's', 'e']
  | Json.num n => (toString n).data
  | Json.str s => writeStr s
  | Json.arr es => '[' :: (writeElems es ++ [']'])
  | Json.obj fs => '{' :: (writeFields fs ++ ['}'])

/-- Comma-separated serialization of array elements. -/
def writeElems : List Json → List Char
  | [] => []
  | [e] => writeJson e
  | e :: e2 :: es => writeJson e ++ ',' :: writeElems (e2 :: es)

/-- Comma-separated serialization of object members. -/
def writeFields : List (String × Json) → List Char
  | [] => []
  | [(k, v)] => writeStr k ++ ':' :: writeJson v
  | (k, v) :: f2 :: fs => writeStr k ++ ':' :: writeJson v ++ ',' :: writeFields (f2 :: fs)

end

/-- Whitespace characters JSON permits between tokens. -/
def jsonWs (c : Char) : Bool := c = ' ' ∨ c = '\t' ∨ c = '\n' ∨ c = '\r'

/-- Drop leading JSON whitespace. -/
def dropWs : List Char → List Char
  | [] => []
  | c :: cs => if jsonWs c then dropWs cs else c :: cs

/-- Value of one hexadecimal digit character. -/
def hexDigitVal (c : Char) : Option Nat :=
  if '0' ≤ c ∧ c ≤ '9' then some (c.toNat - 48)
  else if 'a' ≤ c ∧ c ≤ 'f' then some (c.toNat - 87)
  else if 'A' ≤ c ∧ c ≤ 'F' then some (c.toNat - 55)
  else none

/-- Value of a four-hex-digit escape. -/
def hexQuad (a b c d : Char) : Option Nat := do
  let va ← hexDigitVal a
  let vb ← hexDigitVal b
  let vc ← hexDigitVal c
  let vd ← hexDigitVal d
  pure (((va * 16 + vb) * 16 + vc) * 16 + vd)

/-- Decoding of a single-character string escape (serde_json's set). -/
def escCode (e : Char) : Option Char :=
  if e = '"' then some '"'
  else if e = '\\' then some '\\'
  else if e = '/' then some '/'
  else if e = 'b' then some (Char.ofNat 8)
  else if e = 'f' then some (Char.ofNat 12)
  else if e = 'n' then some '\n'
  else if e = 'r' then some '\r'
  else if e = 't' then some '\t'
  else none

/-- Read the body of a JSON string literal after its opening quote, returning
the decoded characters and the input remaining after the closing quote.
Unescaped control characters and lone surrogate escapes are rejected, as in
serde_json. -/
def readStrBody : List Char → Option (List Char × List Char)
  | [] => none
  | '"' :: cs => some ([], cs)
  | '\\' :: 'u' :: a :: b :: c :: d :: cs =>
    match hexQuad a b c d with
    | some n =>
      if 0xD800 ≤ n ∧ n < 0xE000 then none
      else (readStrBody cs).map (fun p => (Char.ofNat n :: p.1, p.2))
    | none => none
  | '\\' :: 'u' :: _ => none
  | '\\' :: e :: cs =>
    match escCode e with
    | some ch => (readStrBody cs).map (fun p => (ch :: p.1, p.2))
    | none => none
  | '\\' :: [] => none
  | c :: cs =>
    if c.toNat < 32 then none
    else (readStrBody cs).map (fun p => (c :: p.1, p.2))

/-- Is this a decimal digit character. -/
def decDigit (c : Char) : Bool := '0' ≤ c ∧ c ≤ '9'

/-- Longest leading run of decimal digits, and the rest of the input. -/
def digitSpan : List Char → List Char × List Char
  | [] => ([], [])
  | c :: cs =>
    if decDigit c then
      let p := digitSpan cs
      (c :: p.1, p.2)
    else ([], c :: cs)

/-- Numeric value of a digit run. -/
def digitsVal (ds : List Char) : Nat :=
  ds.foldl (fun acc c => acc * 10 + (c.toNat - 48)) 0

/-- Read a JSON integer (optional minus sign, then digits).  The repository's
records carry no numbers, so fractions and exponents are not modelled. -/
def readNum (cs : List Char) : Option (Int × List Char) :=
  match cs with
  | '-' :: cs2 =>
    match digitSpan cs2 with
    | ([], _) => none
    | (ds, rest) => some (-(digitsVal ds : Int), rest)
  | _ =>
    match digitSpan cs with
    | ([], _) => none
    | (ds, rest) => some ((digitsVal ds : Int), rest)

mutual

/-- Read one JSON value.  Recursion is on the fuel counter; the top-level
entry point supplies more fuel than the input length, which is always
sufficient. -/
def readVal : Nat → List Char → Option (Json × List Char)
  | 0, _ => none
  | fuel + 1, cs =>
    match dropWs cs with
    | 'n' :: 'u' :: 'l' :: 'l' :: r => some (Json.null, r)
    | 't' :: 'r' :: 'u' :: 'e' :: r => some (Json.bool true, r)
    | 'f' :: 'a' :: 'l' :: 's' :: 'e' :: r => some (Json.bool false, r)
    | '"' :: r => (readStrBody r).map (fun p => (Json.str (String.mk p.1), p.2))
    | '[' :: r =>
      match dropWs r with
      | [] => none
      | c :: r2 =>
        if c = ']' then some (Json.arr [], r2)
        else (readElems fuel (c :: r2)).map (fun p => (Json.arr p.1, p.2))
    | '{' :: r =>
      match dropWs r with
      | [] => none
      | c :: r2 =>
        if c = '}' then some (Json.obj [], r2)
        else (readFields fuel (c :: r2)).map (fun p => (Json.obj p.1, p.2))
    | c :: r =>
      if c = '-' ∨ decDigit c then (readNum (c :: r)).map (fun p => (Json.num p.1, p.2))
      else none
    | [] => none

/-- Read one or more comma-separated array elements and the closing bracket. -/
def readElems : Nat → List Char → Option (List Json × List Char)
  | 0, _ => none
  | fuel + 1, cs =>
    match readVal fuel cs with
    | none => none
    | some (v, r) =>
      match dropWs r with
      | ',' :: r2 => (readElems fuel r2).map (fun p => (v :: p.1, p.2))
      | ']' :: r2 => some ([v], r2)
      | _ => none

/-- Read one or more comma-separated object members and the closing brace. -/
def readFields : Nat → List Char → Option (List (String × Json) × List Char)
  | 0, _ => none
  | fuel + 1, cs =>
    match dropWs cs with
    | '"' :: r =>
      match readStrBody r with
      | none => none
      | some (k, r1) =>
        match dropWs r1 with
        | ':' :: r2 =>
          match readVal fuel r2 with
          | none => none
          | some (v, r3) =>
            match dropWs r3 with
            | ',' :: r4 => (readFields fuel r4).map (fun p => ((String.mk k, v) :: p.1, p.2))
            | '}' :: r4 => some ([(String.mk k, v)], r4)
            | _ => none
        | _ => none
    | _ => none

end

/-- Parse a complete JSON document from one line of input, requiring the
whole line to be consumed (modulo trailing whitespace), as
serde_json::from_str does. -/
def jsonParse (cs : List Char) : Option Json :=
  match readVal (cs.length + 1) cs with
  | none => none
  | some (j, r) => if dropWs r = [] then some j else none

/-- One element of the content array of a JSONL record (struct JsonlContent
in openclaw.rs; the field serialized as "type" is named content_type). -/
structure JsonlContent where
  content_type : String
  text : Option String
deriving DecidableEq, Repr

/-- The message body of a JSONL record (struct JsonlInner in openclaw.rs). -/
structure JsonlInner where
  role : String
  content : List JsonlContent
deriving DecidableEq, Repr

/-- A full JSONL record (struct JsonlMessage in openclaw.rs; the field
serialized as "type" is named msg_type). -/
structure JsonlMessage where
  msg_type : String
  message : Option JsonlInner
deriving DecidableEq, Repr

/-- First member of an object field list with the given key, as serde uses
the map entries when filling a derived struct. -/
def getEntry (fs : List (String × Json)) (k : String) : Option Json :=
  match fs with
  | [] => none
  | (k2, v) :: fs2 => if k2 = k then some v else getEntry fs2 k

/-- Deserializing a String field: the value must be a JSON string. -/
def asString : Json → Option String
  | Json.str s => some s
  | _ => none

/-- Deserializing an Option-typed field: an absent member or a JSON null
gives none; otherwise the inner deserializer must succeed. -/
def getOptField (fs : List (String × Json)) (k : String)
    (dec : Json → Option α) : Option (Option α) :=
  match getEntry fs k with
  | none => some none
  | some Json.null => some none
  | some j => (dec j).map some

/-- Derived deserialization of JsonlContent from a JSON value. -/
def decodeContentItem : Json → Option JsonlContent
  | Json.obj fs =>
    match getEntry fs "type" with
    | some tj =>
      match asString tj with
      | some t =>
        match getOptField fs "text" asString with
        | some tx => some ⟨t, tx⟩
        | none => none
      | none => none
    | none => none
  | _ => none

/-- Deserialization of a whole content array, failing if any element does. -/
def decodeContentList : List Json → Option (List JsonlContent)
  | [] => some []
  | j :: js =>
    match decodeContentItem j, decodeContentList js with
    | some c, some cs => some (c :: cs)
    | _, _ => none

/-- Derived deserialization of JsonlInner from a JSON value. -/
def decodeInner : Json → Option JsonlInner
  | Json.obj fs =>
    match getEntry fs "role" with
    | some rj =>
      match asString rj with
      | some role =>
        match getEntry fs "content" with
        | some (Json.arr es) =>
          match decodeContentList es with
          | some items => some ⟨role, items⟩
          | none => none
        | _ => none
      | none => none
    | none => none
  | _ => none

/-- Derived deserialization of JsonlMessage from a JSON value. -/
def decodeRecord : Json → Option JsonlMessage
  | Json.obj fs =>
    match getEntry fs "type" with
    | some tj =>
      match asString tj with
      | some t =>
        match getOptField fs "message" decodeInner with
        | some msg => some ⟨t, msg⟩
        | none => none
      | none => none
    | none => none
  | _ => none

/-- The full record decoding of one line: serde_json::from_str for the
JsonlMessage type, i.e. text to JSON value to derived struct. -/
def lineRecord (line : List Char) : Option JsonlMessage :=
  match jsonParse line with
  | none => none
  | some j => decodeRecord j

/-- Concatenation, in order and with no separator, of the text of all
content segments whose declared type is "text" (the filter_map plus
join("") in parse_jsonl_line). -/
def concatTexts (items : List JsonlContent) : String :=
  String.join (items.filterMap fun c => if c.content_type = "text" then c.text else none)

/-- parse_jsonl_line from openclaw.rs: decode the record, then require kind
"message", a present body, a user or assistant role, and nonempty
concatenated text. -/
def parse_jsonl_line (line : List Char) : Option ChatMessage :=
  match lineRecord line with
  | none => none
  | some parsed =>
    if parsed.msg_type ≠ "message" then none
    else
      match parsed.message with
      | none => none
      | some inner =>
        if inner.role ≠ "user" ∧ inner.role ≠ "assistant" then none
        else
          let text := concatTexts inner.content
          if text = "" then none
          else some ⟨inner.role, text⟩

/-- The JSON value built by append_message in openclaw.rs for one message. -/
def messageRecord (msg : ChatMessage) : Json :=
  Json.obj
    [("type", Json.str "message"),
     ("message",
       Json.obj
         [("role", Json.str msg.role),
          ("content",
            Json.arr
              [Json.obj [("type", Json.str "text"), ("text", Json.str msg.content)]])])]

/-- The serialized line append_message writes (before the line terminator
writeln adds). -/
def encodeLine (msg : ChatMessage) : List Char :=
  writeJson (messageRecord msg)

/-- A message the spec calls valid: a user or assistant role and nonempty
content. -/
def ValidMsg (m : ChatMessage) : Prop :=
  (m.role = "user" ∨ m.role = "assistant") ∧ m.content ≠ ""

instance (m : ChatMessage) : Decidable (ValidMsg m) := by
  unfold ValidMsg; infer_instance

mutual

/-- No numeric leaf anywhere in the value.  Every record this repository
writes satisfies it, and it frees the codec round trip from gluing concerns
between a serialized number and what follows it. -/
def numFree : Json → Bool
  | Json.null => true
  | Json.bool _ => true
  | Json.num _ => false
  | Json.str _ => true
  | Json.arr es => numFreeList es
  | Json.obj fs => numFreeFields fs

/-- All elements of an array are number-free. -/
def numFreeList : List Json → Bool
  | [] => true
  | j :: js => numFree j && numFreeList js

/-- All member values of an object are number-free. -/
def numFreeFields : List (String × Json) → Bool
  | [] => true
  | (_, v) :: fs => numFree v && numFreeFields fs

end

/-- Total UTF-8 byte length of a character list, matching Rust's str::len
on the corresponding string. -/
def utf8Len (cs : List Char) : Nat := (cs.map Char.utf8Size).sum

/-- Split on every line-feed character; n line feeds give n+1 pieces. -/
def splitNl : List Char → List (List Char)
  | [] => [[]]
  | c :: cs =>
    if c = '\n' then [] :: splitNl cs
    else
      match splitNl cs with
      | [] => [[c]]
      | p :: ps => (c :: p) :: ps

/-- Remove one trailing carriage return, if present. -/
def dropLastCr (l : List Char) : List Char :=
  if l.getLast? = some '\r' then l.dropLast else l

/-- Reassemble split pieces the way Rust's str::lines does: every piece
followed by a line feed loses one trailing carriage return, and the final
piece (the text after the last line feed) is kept verbatim but dropped when
empty. -/
def rustLinesAux : List (List Char) → List (List Char)
  | [] => []
  | [p] => if p = [] then [] else [p]
  | p :: q :: ps => dropLastCr p :: rustLinesAux (q :: ps)

/-- Rust's str::lines on a character list. -/
def rustLines (cs : List Char) : List (List Char) :=
  rustLinesAux (splitNl cs)

/-- The shared loop body of watch_session (used for both the initial replay
and every notification-triggered read): walk the lines, add each line's byte
length plus one to the running offset, and emit each line that parses. -/
def tailLoop : List (List Char) → Nat → List ChatMessage × Nat
  | [], off => ([], off)
  | l :: ls, off =>
    let r := tailLoop ls (off + utf8Len l + 1)
    match parse_jsonl_line l with
    | some m => (m :: r.1, r.2)
    | none => r

/-- The initial replay in watch_session (lines 43-61 of watcher.rs): read
the whole existing file from offset zero, emitting every parsed message. -/
def initialRead (content : List Char) : List ChatMessage × Nat :=
  tailLoop (rustLines content) 0

/-- Byte-indexed suffix of a character list: drops exactly n UTF-8 bytes,
failing when n is not a character boundary (where Rust slicing panics). -/
def dropBytes : Nat → List Char → Option (List Char)
  | 0, cs => some cs
  | _ + 1, [] => none
  | n + 1, c :: cs =>
    if c.utf8Size ≤ n + 1 then dropBytes (n + 1 - c.utf8Size) cs
    else none

/-- One wake-up of the delivery task in watch_session (lines 101-137 of
watcher.rs): a missing file is skipped, content no longer than the stored
offset is skipped, and otherwise the lines of the byte suffix past the
offset are walked with tailLoop, yielding the emitted messages and the new
offset. -/
def notifyStep (file : Option (List Char)) (off : Nat) : List ChatMessage × Nat :=
  match file with
  | none => ([], off)
  | some content =>
    if utf8Len content ≤ off then ([], off)
    else
      match dropBytes off content with
      | some newContent => tailLoop (rustLines newContent) off
      | none => ([], off)

/-- The registry of watcher.rs: which sessions hold a registered watcher
handle, and the shared per-session byte offsets. -/
structure WatcherState where
  watchers : List String
  fileOffsets : List (String × Nat)

/-- WatcherState::new. -/
def WatcherState.empty : WatcherState := ⟨[], []⟩

/-- Key set of a hash map after an insert (the value is replaced, the key
appears once). -/
def insertKey (ks : List String) (k : String) : List String :=
  if k ∈ ks then ks else k :: ks

/-- Store a key-value pair, replacing any previous value for the key. -/
def setOffset (m : List (String × Nat)) (k : String) (v : Nat) : List (String × Nat) :=
  (k, v) :: m.filter (fun p => p.1 ≠ k)

/-- Look up a stored offset. -/
def getOffset : List (String × Nat) → String → Option Nat
  | [], _ => none
  | (k2, v) :: m, k => if k2 = k then some v else getOffset m k

/-- watch_session from watcher.rs, at registry granularity: no check for an
existing watch is made; the whole current file is replayed and emitted, the
session's offset is set to the total consumed length, and the watcher
handle is inserted (replacing any previous handle for the session).  The
returned list is what this call itself emits. -/
def watch_session (st : WatcherState) (file : Option (List Char)) (sessionId : String) :
    WatcherState × List ChatMessage :=
  let p := match file with
    | some content => initialRead content
    | none => ([], 0)
  (⟨insertKey st.watchers sessionId, setOffset st.fileOffsets sessionId p.2⟩, p.1)

/-- stop_watching from watcher.rs: remove the watcher handle if present
(the offsets table is left as is). -/
def stop_watching (st : WatcherState) (sessionId : String) : WatcherState :=
  ⟨st.watchers.filter (fun s => s ≠ sessionId), st.fileOffsets⟩

/-- append_message from openclaw.rs, at file-content granularity: append
the serialized record and one line-feed terminator. -/
def append_message (f : List Char) (msg : ChatMessage) : List Char :=
  f ++ encodeLine msg ++ ['\n']

/-- load_session from openclaw.rs: a missing file is an empty history;
otherwise parse every line, dropping the ones that do not decode. -/
def load_session (file : Option (List Char)) : List ChatMessage :=
  match file with
  | none => []
  | some content => (rustLines content).filterMap parse_jsonl_line

/-- The local branch of cmd_send_message in lib.rs: the user message is
appended first; then the external agent runs, and only on success is its
response appended as the assistant message.  The result pairs what the
command returns with the final log content. -/
def cmd_send_message_local (f : List Char) (message : String)
    (agent : Except String String) : Except String Unit × List Char :=
  let f1 := append_message f ⟨"user", message⟩
  match agent with
  | Except.error e => (Except.error e, f1)
  | Except.ok response => (Except.ok (), append_message f1 ⟨"assistant", response⟩)

/-- A log made of terminated lines, none containing a line feed or a
carriage return: the shape produced by repeated append_message calls. -/
inductive GoodLog : List Char → Prop
  | nil : GoodLog []
  | line (l rest : List Char) : '\n' ∉ l → '\r' ∉ l → GoodLog rest →
      GoodLog (l ++ '\n' :: rest)

/-- Total bytes the tail loop advances over a list of lines: each line's
byte length plus one for its terminator. -/
def consumedLen (ls : List (List Char)) : Nat := (ls.map (fun l => utf8Len l + 1)).sum

/-- ConnectionStatus from ssh.rs. -/
inductive ConnectionStatus where
  | disconnected
  | connecting
  | connected
  | error (msg : String)
deriving DecidableEq, Repr

/-- SshConfig from ssh.rs. -/
structure SshConfig where
  host : String
  port : Nat
  user : String
  key_path : String
deriving DecidableEq, Repr

/-- The Default instance of SshConfig. -/
def defaultSshConfig : SshConfig :=
  ⟨"mac-mini.local", 22, "clawdbot1", "~/.ssh/id_ed25519"⟩

/-- SshSession from ssh.rs; the held openssh session object is abstracted
to whether one is present. -/
structure SshSession where
  config : SshConfig
  status : ConnectionStatus
  session : Bool
deriving DecidableEq, Repr

/-- SshSession::new. -/
def SshSession.new : SshSession :=
  ⟨defaultSshConfig, ConnectionStatus.disconnected, false⟩

/-- SshSession::expand_path: a leading tilde-slash is replaced by the home
directory. -/
def expand_path (home : String) (path : String) : String :=
  if path.startsWith "~/" then home ++ "/" ++ path.drop 2 else path

/-- The destination string connect builds: user, host and port only. -/
def connectDest (cfg : SshConfig) : String :=
  "ssh://" ++ cfg.user ++ "@" ++ cfg.host ++ ":" ++ toString cfg.port

/-- SshSession::connect.  The external library call
(openssh::Session::connect_mux) is abstracted as a handshake oracle keyed
by the destination string.  As in the source, the status is set to
Connecting up front, the expanded key path is computed but never passed to
the connection attempt, and on failure the function returns early with the
error, leaving the status as it was at the attempt. -/
def connect (home : String) (handshake : String → Except String Unit)
    (s : SshSession) : SshSession × Except String Unit :=
  let s1 : SshSession := { s with status := ConnectionStatus.connecting }
  let _key_path := expand_path home s1.config.key_path
  let dest := connectDest s1.config
  match handshake dest with
  | Except.error e => (s1, Except.error ("SSH connect failed: " ++ e))
  | Except.ok _ =>
    ({ s1 with session := true, status := ConnectionStatus.connected }, Except.ok ())

/-- SshSession::disconnect: the close result of the underlying session is
ignored, the session object is dropped, and the status becomes Disconnected
unconditionally; nothing is returned to the caller. -/
def disconnect (s : SshSession) (_closeResult : Except String Unit) : SshSession :=
  ⟨s.config, ConnectionStatus.disconnected, false⟩

/-- The escaping send_message_remote applies: each single quote in the
message is replaced by quote, backslash, quote, quote. -/
def shellEscape (m : List Char) : List Char :=
  m.flatMap fun c => if c = '\x27' then ['\x27', '\\', '\x27', '\x27'] else [c]

/-- The remote command string send_message_remote builds: the agent id, the
session id and the escaped message are each spliced between single quotes. -/
def sendCmd (agentId sessionId msg : List Char) : List Char :=
  "openclaw agent --agent ".data ++ '\x27' :: agentId
    ++ '\x27' :: " --session-id ".data ++ '\x27' :: sessionId
    ++ '\x27' :: " --message ".data ++ '\x27' :: shellEscape msg ++ ['\x27']

/-- POSIX shell field splitting for the fragment the remote command uses:
spaces separate words, single quotes quote every character up to the next
single quote, and a backslash outside quotes escapes the next character.
The state is (inside a quoted section, current word, a word has started);
an unti-closed quote is an error. -/
def shTokens : Bool → List Char → Bool → List Char → Option (List (List Char))
  | true, _, _, [] => none
  | false, cur, inWord, [] => some (if inWord then [cur] else [])
  | true, cur, iw, c :: cs =>
    if c = '\x27' then shTokens false cur iw cs
    else shTokens true (cur ++ [c]) iw cs
  | false, cur, iw, c :: cs =>
    if c = '\x27' then shTokens true cur true cs
    else if c = ' ' then
      if iw then (shTokens false [] false cs).map (cur :: ·)
      else shTokens false [] false cs
    else if c = '\\' then
      match cs with
      | [] => none
      | d :: cs2 => shTokens false (cur ++ [d]) true cs2
    else shTokens false (cur ++ [c]) true cs

/-- Tokenize a whole command line from the initial state. -/
def shTokenize (cs : List Char) : Option (List (List Char)) :=
  shTokens false [] false cs

/-- Repeated append_message calls, oldest first. -/
def appendAll (f : List Char) (ms : List ChatMessage) : List Char :=
  ms.foldl append_message f

/-- The append-then-notify cycle: each message is appended to the log (one
writer step) and the resulting change notification is processed at the
current offset.  Returns the final file, the final offset and everything
delivered across the cycles, in order. -/
def deliverSeq (f : List Char) (off : Nat) : List ChatMessage → List Char × Nat × List ChatMessage
  | [] => (f, off, [])
  | m :: ms =>
    let f1 := append_message f m
    let p := notifyStep (some f1) off
    let r := deliverSeq f1 p.2 ms
    (r.1, r.2.1, p.1 ++ r.2.2)

/-- Whether a connection status is the error variant. -/
def isErrorStatus : ConnectionStatus → Bool
  | ConnectionStatus.error _ => true
  | _ => false

theorem hexDigitVal_hexChar (n : Nat) (h : n < 16) : hexDigitVal (hexChar n) = some n := by
  interval_cases n <;> decide

theorem readStrBody_escape (c : Char) (rest : List Char) :
    readStrBody (escapeChar c ++ rest) = (readStrBody rest).map (fun p => (c :: p.1, p.2)) := by
  unfold escapeChar
  split_ifs with h1 h2 h3 h4 h5 h6 h7 h8
  · subst h1; simp [readStrBody, escCode]
  · subst h2; simp [readStrBody, escCode]
  · subst h3; simp [readStrBody, escCode]
  · subst h4; simp [readStrBody, escCode]
  · subst h5; simp [readStrBody, escCode]
  · subst h6; simp [readStrBody, escCode]
  · subst h7; simp [readStrBody, escCode]
  · have hdiv : c.toNat / 16 < 16 := by omega
    have hmod : c.toNat % 16 < 16 := by omega
    have h0 : hexDigitVal '0' = some 0 := by decide
    have hq : hexQuad '0' '0' (hexChar (c.toNat / 16)) (hexChar (c.toNat % 16))
        = some (c.toNat / 16 * 16 + c.toNat % 16) := by
      simp [hexQuad, h0, hexDigitVal_hexChar _ hdiv, hexDigitVal_hexChar _ hmod]
    have hn : c.toNat / 16 * 16 + c.toNat % 16 = c.toNat := by omega
    have hsur : ¬(55296 ≤ c.toNat ∧ c.toNat < 57344) := by omega
    simp [readStrBody, hq, hn, hsur, Char.ofNat_toNat]
  · simp only [List.singleton_append]
    simp [readStrBody, h1, h2, h8]

theorem readStrBody_write (l : List Char) :
    ∀ rest, readStrBody (l.flatMap escapeChar ++ '"' :: rest) = some (l, rest) := by
  induction l with
  | nil => intro rest; simp [readStrBody]
  | cons c l ih =>
    intro rest
    rw [List.flatMap_cons, List.append_assoc, readStrBody_escape, ih]
    rfl

/-- The tail shape of a nonempty serialized element list. -/
theorem writeElems_cons (e : Json) (es : List Json) :
    writeElems (e :: es)
      = writeJson e ++ (match es with | [] => [] | e2 :: es2 => ',' :: writeElems (e2 :: es2)) := by
  cases es <;> simp [writeElems]

/-- The tail shape of a nonempty serialized member list. -/
theorem writeFields_cons (k : String) (v : Json) (fs : List (String × Json)) :
    writeFields ((k, v) :: fs)
      = writeStr k ++ ':' :: writeJson v
          ++ (match fs with | [] => [] | f2 :: fs2 => ',' :: writeFields (f2 :: fs2)) := by
  cases fs <;> simp [writeFields]

/-- A number-free serialized value starts with a character that is not
whitespace and closes nothing. -/
theorem writeJson_head (j : Json) (hnf : numFree j = true) :
    ∃ c t, writeJson j = c :: t ∧ jsonWs c = false ∧ c ≠ ']' ∧ c ≠ '}' ∧ c ≠ ',' := by
  cases j with
  | null => exact ⟨'n', _, rfl, by decide, by decide, by decide, by decide⟩
  | bool b =>
    cases b with
    | true => exact ⟨'t', _, rfl, by decide, by decide, by decide, by decide⟩
    | false => exact ⟨'f', _, rfl, by decide, by decide, by decide, by decide⟩
  | num n => simp [numFree] at hnf
  | str s => exact ⟨'"', _, rfl, by decide, by decide, by decide, by decide⟩
  | arr es => exact ⟨'[', _, rfl, by decide, by decide, by decide, by decide⟩
  | obj fs => exact ⟨'{', _, rfl, by decide, by decide, by decide, by decide⟩

theorem dropWs_not_ws {c : Char} (h : jsonWs c = false) (cs : List Char) :
    dropWs (c :: cs) = c :: cs := by
  simp [dropWs, h]

theorem dropWs_writeJson (j : Json) (hnf : numFree j = true) (x : List Char) :
    dropWs (writeJson j ++ x) = writeJson j ++ x := by
  obtain ⟨c, t, hct, hws, -, -, -⟩ := writeJson_head j hnf
  rw [hct, List.cons_append, dropWs_not_ws hws]

theorem readVal_arr_go (fuel : Nat) (c : Char) (y : List Char)
    (hws : jsonWs c = false) (hbr : c ≠ ']') :
    readVal (fuel + 1) ('[' :: c :: y)
      = (readElems fuel (c :: y)).map (fun p => (Json.arr p.1, p.2)) := by
  have e1 : readVal (fuel + 1) ('[' :: c :: y)
      = (match dropWs (c :: y) with
         | [] => none
         | c2 :: r2 =>
           if c2 = ']' then some (Json.arr [], r2)
           else (readElems fuel (c2 :: r2)).map (fun p => (Json.arr p.1, p.2))) := rfl
  rw [e1, dropWs_not_ws hws]
  exact if_neg hbr

theorem readVal_obj_go (fuel : Nat) (c : Char) (y : List Char)
    (hws : jsonWs c = false) (hbc : c ≠ '}') :
    readVal (fuel + 1) ('{' :: c :: y)
      = (readFields fuel (c :: y)).map (fun p => (Json.obj p.1, p.2)) := by
  have e1 : readVal (fuel + 1) ('{' :: c :: y)
      = (match dropWs (c :: y) with
         | [] => none
         | c2 :: r2 =>
           if c2 = '}' then some (Json.obj [], r2)
           else (readFields fuel (c2 :: r2)).map (fun p => (Json.obj p.1, p.2))) := rfl
  rw [e1, dropWs_not_ws hws]
  exact if_neg hbc

theorem readElems_step (fuel : Nat) (cs : List Char) :
    readElems (fuel + 1) cs
      = (match readVal fuel cs with
         | none => none
         | some (v, r) =>
           match dropWs r with
           | ',' :: r2 => (readElems fuel r2).map (fun p => (v :: p.1, p.2))
           | ']' :: r2 => some ([v], r2)
           | _ => none) := rfl

theorem readFields_key (fuel : Nat) (k : String) (y : List Char) :
    readFields (fuel + 1) ('"' :: (k.data.flatMap escapeChar ++ '"' :: (':' :: y)))
      = (match readVal fuel y with
         | none => none
         | some (v2, r3) =>
           match dropWs r3 with
           | ',' :: r4 => (readFields fuel r4).map (fun p => ((String.mk k.data, v2) :: p.1, p.2))
           | '}' :: r4 => some ([(String.mk k.data, v2)], r4)
           | _ => none) := by
  have e1 : readFields (fuel + 1) ('"' :: (k.data.flatMap escapeChar ++ '"' :: (':' :: y)))
      = (match readStrBody (k.data.flatMap escapeChar ++ '"' :: (':' :: y)) with
         | none => none
         | some (key, r1) =>
           match dropWs r1 with
           | ':' :: r2 =>
             match readVal fuel r2 with
             | none => none
             | some (v2, r3) =>
               match dropWs r3 with
               | ',' :: r4 =>
                 (readFields fuel r4).map (fun p => ((String.mk key, v2) :: p.1, p.2))
               | '}' :: r4 => some ([(String.mk key, v2)], r4)
               | _ => none
           | _ => none) := rfl
  rw [e1, readStrBody_write k.data]
  rfl

/-- A nonempty serialized member list begins with the key's opening quote. -/
theorem writeFields_head (k : String) (v : Json) (fs : List (String × Json)) (x : List Char) :
    ∃ y, writeFields ((k, v) :: fs) ++ x = '"' :: y := by
  cases fs with
  | nil =>
    exact ⟨k.data.flatMap escapeChar ++ '"' :: ':' :: (writeJson v ++ x),
      by simp [writeFields, writeStr]⟩
  | cons f2 fs2 =>
    exact ⟨k.data.flatMap escapeChar
        ++ '"' :: ':' :: (writeJson v ++ ',' :: (writeFields (f2 :: fs2) ++ x)),
      by simp [writeFields, writeStr]⟩

mutual

theorem readVal_write : ∀ (j : Json) (fuel : Nat) (rest : List Char),
    numFree j = true → (writeJson j).length < fuel →
    readVal fuel (writeJson j ++ rest) = some (j, rest)
  | _, 0, _, _, hfuel => by omega
  | Json.null, fuel + 1, rest, _, _ => by
    simp [writeJson, readVal, dropWs, jsonWs]
  | Json.bool true, fuel + 1, rest, _, _ => by
    simp [writeJson, readVal, dropWs, jsonWs]
  | Json.bool false, fuel + 1, rest, _, _ => by
    simp [writeJson, readVal, dropWs, jsonWs]
  | Json.num n, fuel + 1, rest, hnf, _ => by
    simp [numFree] at hnf
  | Json.str s, fuel + 1, rest, _, _ => by
    obtain ⟨l⟩ := s
    have harg : writeJson (Json.str ⟨l⟩) ++ rest
        = '"' :: (l.flatMap escapeChar ++ '"' :: rest) := by
      simp [writeJson, writeStr]
    rw [harg]
    simp [readVal, dropWs, jsonWs, readStrBody_write]
  | Json.arr [], fuel + 1, rest, _, _ => by
    simp [writeJson, writeElems, readVal, dropWs, jsonWs]
  | Json.arr (e :: es), fuel + 1, rest, hnf, hfuel => by
    have hnfl : numFreeList (e :: es) = true := by simpa [numFree] using hnf
    have hne : numFree e = true := by
      simp [numFreeList, Bool.and_eq_true] at hnfl; exact hnfl.1
    obtain ⟨tl, htl⟩ : ∃ tl, writeElems (e :: es) = writeJson e ++ tl := by
      cases es with
      | nil => exact ⟨[], by simp [writeElems]⟩
      | cons e2 es2 => exact ⟨_, writeElems_cons e (e2 :: es2)⟩
    obtain ⟨c0, t0, he0, hws0, hbr0, -, -⟩ := writeJson_head e hne
    have hX : writeElems (e :: es) ++ ']' :: rest
        = c0 :: (t0 ++ (tl ++ ']' :: rest)) := by
      rw [htl, he0]; simp
    have harg : writeJson (Json.arr (e :: es)) ++ rest
        = '[' :: (writeElems (e :: es) ++ ']' :: rest) := by
      simp [writeJson]
    have hlen : (writeElems (e :: es)).length + 1 < fuel := by
      have : (writeJson (Json.arr (e :: es))).length
          = (writeElems (e :: es)).length + 2 := by simp [writeJson]
      omega
    rw [harg, hX, readVal_arr_go fuel c0 _ hws0 hbr0, ← hX,
      readElems_write e es fuel rest hnfl hlen]
    rfl
  | Json.obj [], fuel + 1, rest, _, _ => by
    simp [writeJson, writeFields, readVal, dropWs, jsonWs]
  | Json.obj ((k, v) :: fs), fuel + 1, rest, hnf, hfuel => by
    have hnfl : numFreeFields ((k, v) :: fs) = true := by simpa [numFree] using hnf
    have harg : writeJson (Json.obj ((k, v) :: fs)) ++ rest
        = '{' :: (writeFields ((k, v) :: fs) ++ '}' :: rest) := by
      simp [writeJson]
    obtain ⟨y, hY⟩ := writeFields_head k v fs ('}' :: rest)
    have hlen : (writeFields ((k, v) :: fs)).length + 1 < fuel := by
      have : (writeJson (Json.obj ((k, v) :: fs))).length
          = (writeFields ((k, v) :: fs)).length + 2 := by simp [writeJson]
      omega
    rw [harg, hY, readVal_obj_go fuel '"' y (by decide) (by decide), ← hY,
      readFields_write (k, v) fs fuel rest hnfl hlen]
    rfl
termination_by j _ _ _ _ => sizeOf j

theorem readElems_write : ∀ (e : Json) (es : List Json) (fuel : Nat) (rest : List Char),
    numFreeList (e :: es) = true → (writeElems (e :: es)).length + 1 < fuel →
    readElems fuel (writeElems (e :: es) ++ ']' :: rest) = some (e :: es, rest)
  | _, _, 0, _, _, hfuel => by omega
  | e, [], fuel + 1, rest, hnfl, hfuel => by
    have hne : numFree e = true := by
      simp [numFreeList, Bool.and_eq_true] at hnfl; exact hnfl
    have harg : writeElems [e] ++ ']' :: rest = writeJson e ++ ']' :: rest := by
      simp [writeElems]
    have hlen : (writeJson e).length < fuel := by
      simp [writeElems] at hfuel; omega
    rw [readElems_step, harg, readVal_write e fuel (']' :: rest) hne hlen]
    rfl
  | e, e2 :: es2, fuel + 1, rest, hnfl, hfuel => by
    have hne : numFree e = true := by
      simp [numFreeList, Bool.and_eq_true] at hnfl; exact hnfl.1
    have hnes : numFreeList (e2 :: es2) = true := by
      simp [numFreeList, Bool.and_eq_true] at hnfl
      simp [numFreeList, Bool.and_eq_true, hnfl.2.1, hnfl.2.2]
    have harg : writeElems (e :: e2 :: es2) ++ ']' :: rest
        = writeJson e ++ (',' :: (writeElems (e2 :: es2) ++ ']' :: rest)) := by
      simp [writeElems]
    have hlen1 : (writeJson e).length < fuel := by
      simp [writeElems] at hfuel; omega
    have hlen2 : (writeElems (e2 :: es2)).length + 1 < fuel := by
      simp [writeElems] at hfuel; omega
    rw [readElems_step, harg, readVal_write e fuel _ hne hlen1]
    show (readElems fuel (writeElems (e2 :: es2) ++ ']' :: rest)).map
        (fun p => (e :: p.1, p.2)) = some (e :: e2 :: es2, rest)
    rw [readElems_write e2 es2 fuel rest hnes hlen2]
    rfl
termination_by e es _ _ _ _ => sizeOf e + sizeOf es

theorem readFields_write :
    ∀ (f : String × Json) (fs : List (String × Json)) (fuel : Nat) (rest : List Char),
    numFreeFields (f :: fs) = true → (writeFields (f :: fs)).length + 1 < fuel →
    readFields fuel (writeFields (f :: fs) ++ '}' :: rest) = some (f :: fs, rest)
  | _, _, 0, _, _, hfuel => by omega
  | (k, v), [], fuel + 1, rest, hnfl, hfuel => by
    have hnv : numFree v = true := by
      simp [numFreeFields, Bool.and_eq_true] at hnfl; exact hnfl
    have harg : writeFields [(k, v)] ++ '}' :: rest
        = '"' :: (k.data.flatMap escapeChar ++ '"' :: (':' :: (writeJson v ++ '}' :: rest))) := by
      simp [writeFields, writeStr]
    have hlen : (writeJson v).length < fuel := by
      simp [writeFields] at hfuel; omega
    rw [harg, readFields_key, readVal_write v fuel _ hnv hlen]
    rfl
  | (k, v), f2 :: fs2, fuel + 1, rest, hnfl, hfuel => by
    have hnv : numFree v = true := by
      simp [numFreeFields, Bool.and_eq_true] at hnfl; exact hnfl.1
    have hnfs : numFreeFields (f2 :: fs2) = true := by
      obtain ⟨k2, v2⟩ := f2
      simp [numFreeFields, Bool.and_eq_true] at hnfl
      simp [numFreeFields, Bool.and_eq_true, hnfl.2.1, hnfl.2.2]
    have harg : writeFields ((k, v) :: f2 :: fs2) ++ '}' :: rest
        = '"' :: (k.data.flatMap escapeChar ++ '"' :: (':' :: (writeJson v
            ++ ',' :: (writeFields (f2 :: fs2) ++ '}' :: rest)))) := by
      simp [writeFields, writeStr]
    have hlen1 : (writeJson v).length < fuel := by
      simp [writeFields] at hfuel; omega
    have hlen2 : (writeFields (f2 :: fs2)).length + 1 < fuel := by
      simp [writeFields] at hfuel; omega
    rw [harg, readFields_key, readVal_write v fuel _ hnv hlen1]
    show (readFields fuel (writeFields (f2 :: fs2) ++ '}' :: rest)).map
        (fun p => ((String.mk k.data, v) :: p.1, p.2)) = some ((k, v) :: f2 :: fs2, rest)
    rw [readFields_write f2 fs2 fuel rest hnfs hlen2]
    rfl
termination_by f fs _ _ _ _ => sizeOf f + sizeOf fs

end

theorem jsonParse_write (j : Json) (hnf : numFree j = true) :
    jsonParse (writeJson j) = some j := by
  have h := readVal_write j ((writeJson j).length + 1) [] hnf (by omega)
  rw [List.append_nil] at h
  simp [jsonParse, h, dropWs]

theorem decodeRecord_messageRecord (m : ChatMessage) :
    decodeRecord (messageRecord m)
      = some ⟨"message", some ⟨m.role, [⟨"text", some m.content⟩]⟩⟩ := by
  simp [messageRecord, decodeRecord, getEntry, asString, getOptField, decodeInner,
    decodeContentList, decodeContentItem]

theorem concatTexts_single (s : String) : concatTexts [⟨"text", some s⟩] = s := by
  obtain ⟨l⟩ := s
  simp [concatTexts, String.join]

/-- The line-level codec round trip for valid messages: decoding what
append_message serializes gives back exactly the message. -/
theorem parse_encodeLine (m : ChatMessage) (hv : ValidMsg m) :
    parse_jsonl_line (encodeLine m) = some m := by
  have hnf : numFree (messageRecord m) = true := by
    simp [messageRecord, numFree, numFreeFields, numFreeList]
  have h1 : jsonParse (encodeLine m) = some (messageRecord m) := jsonParse_write _ hnf
  have h3 : lineRecord (encodeLine m)
      = some ⟨"message", some ⟨m.role, [⟨"text", some m.content⟩]⟩⟩ := by
    simp [lineRecord, h1, decodeRecord_messageRecord]
  rcases hv with ⟨hrole, hcontent⟩
  rcases hrole with h | h <;>
    (simp [parse_jsonl_line, h3, h, concatTexts_single, hcontent]; rw [← h])

theorem hexChar_ge (n : Nat) (h : n < 16) : 32 ≤ (hexChar n).toNat := by
  interval_cases n <;> decide

theorem escapeChar_ge (c x : Char) (hx : x ∈ escapeChar c) : 32 ≤ x.toNat := by
  unfold escapeChar at hx
  split_ifs at hx with h1 h2 h3 h4 h5 h6 h7 h8
  · fin_cases hx <;> decide
  · fin_cases hx <;> decide
  · fin_cases hx <;> decide
  · fin_cases hx <;> decide
  · fin_cases hx <;> decide
  · fin_cases hx <;> decide
  · fin_cases hx <;> decide
  · fin_cases hx
    · decide
    · decide
    · decide
    · decide
    · exact hexChar_ge _ (by omega)
    · exact hexChar_ge _ (by omega)
  · fin_cases hx
    omega

theorem writeStr_ge (s : String) (x : Char) (hx : x ∈ writeStr s) : 32 ≤ x.toNat := by
  rw [writeStr] at hx
  rcases List.mem_cons.mp hx with rfl | hx
  · decide
  rcases List.mem_append.mp hx with hx | hx
  · obtain ⟨c, -, hc⟩ := List.mem_flatMap.mp hx
    exact escapeChar_ge c x hc
  · fin_cases hx; decide

mutual

theorem writeJson_ge : ∀ (j : Json), numFree j = true → ∀ x ∈ writeJson j, 32 ≤ x.toNat
  | Json.null, _, x, hx => by
    rw [writeJson] at hx; fin_cases hx <;> decide
  | Json.bool true, _, x, hx => by
    rw [writeJson] at hx; fin_cases hx <;> decide
  | Json.bool false, _, x, hx => by
    rw [writeJson] at hx; fin_cases hx <;> decide
  | Json.num n, hnf, x, hx => by simp [numFree] at hnf
  | Json.str s, _, x, hx => writeStr_ge s x hx
  | Json.arr es, hnf, x, hx => by
    have hnfl : numFreeList es = true := by simpa [numFree] using hnf
    rw [writeJson] at hx
    rcases List.mem_cons.mp hx with rfl | hx
    · decide
    rcases List.mem_append.mp hx with hx | hx
    · exact writeElems_ge es hnfl x hx
    · fin_cases hx; decide
  | Json.obj fs, hnf, x, hx => by
    have hnfl : numFreeFields fs = true := by simpa [numFree] using hnf
    rw [writeJson] at hx
    rcases List.mem_cons.mp hx with rfl | hx
    · decide
    rcases List.mem_append.mp hx with hx | hx
    · exact writeFields_ge fs hnfl x hx
    · fin_cases hx; decide

theorem writeElems_ge : ∀ (es : List Json), numFreeList es = true →
    ∀ x ∈ writeElems es, 32 ≤ x.toNat
  | [], _, x, hx => by simp [writeElems] at hx
  | [e], hnf, x, hx => by
    have hne : numFree e = true := by
      simp [numFreeList, Bool.and_eq_true] at hnf; exact hnf
    rw [show writeElems [e] = writeJson e from by simp [writeElems]] at hx
    exact writeJson_ge e hne x hx
  | e :: e2 :: es, hnf, x, hx => by
    have hne : numFree e = true := by
      simp [numFreeList, Bool.and_eq_true] at hnf; exact hnf.1
    have hnes : numFreeList (e2 :: es) = true := by
      simp [numFreeList, Bool.and_eq_true] at hnf
      simp [numFreeList, Bool.and_eq_true, hnf.2.1, hnf.2.2]
    rw [show writeElems (e :: e2 :: es) = writeJson e ++ ',' :: writeElems (e2 :: es)
      from by simp [writeElems]] at hx
    rcases List.mem_append.mp hx with hx | hx
    · exact writeJson_ge e hne x hx
    rcases List.mem_cons.mp hx with rfl | hx
    · decide
    · exact writeElems_ge (e2 :: es) hnes x hx

theorem writeFields_ge : ∀ (fs : List (String × Json)), numFreeFields fs = true →
    ∀ x ∈ writeFields fs, 32 ≤ x.toNat
  | [], _, x, hx => by simp [writeFields] at hx
  | [(k, v)], hnf, x, hx => by
    have hnv : numFree v = true := by
      simp [numFreeFields, Bool.and_eq_true] at hnf; exact hnf
    rw [show writeFields [(k, v)] = writeStr k ++ ':' :: writeJson v
      from by simp [writeFields]] at hx
    rcases List.mem_append.mp hx with hx | hx
    · exact writeStr_ge k x hx
    rcases List.mem_cons.mp hx with rfl | hx
    · decide
    · exact writeJson_ge v hnv x hx
  | (k, v) :: f2 :: fs, hnf, x, hx => by
    have hnv : numFree v = true := by
      simp [numFreeFields, Bool.and_eq_true] at hnf; exact hnf.1
    have hnfs : numFreeFields (f2 :: fs) = true := by
      obtain ⟨k2, v2⟩ := f2
      simp [numFreeFields, Bool.and_eq_true] at hnf
      simp [numFreeFields, Bool.and_eq_true, hnf.2.1, hnf.2.2]
    rw [show writeFields ((k, v) :: f2 :: fs)
        = writeStr k ++ ':' :: (writeJson v ++ ',' :: writeFields (f2 :: fs))
      from by simp [writeFields]] at hx
    rcases List.mem_append.mp hx with hx | hx
    · exact writeStr_ge k x hx
    rcases List.mem_cons.mp hx with rfl | hx
    · decide
    rcases List.mem_append.mp hx with hx | hx
    · exact writeJson_ge v hnv x hx
    rcases List.mem_cons.mp hx with rfl | hx
    · decide
    · exact writeFields_ge (f2 :: fs) hnfs x hx

end

theorem messageRecord_numFree (m : ChatMessage) : numFree (messageRecord m) = true := by
  simp [messageRecord, numFree, numFreeFields, numFreeList]

theorem encodeLine_no_nl (m : ChatMessage) : '\n' ∉ encodeLine m := fun h =>
  absurd (writeJson_ge _ (messageRecord_numFree m) _ h) (by decide)

theorem encodeLine_no_cr (m : ChatMessage) : '\r' ∉ encodeLine m := fun h =>
  absurd (writeJson_ge _ (messageRecord_numFree m) _ h) (by decide)

theorem splitNl_ne_nil (cs : List Char) : splitNl cs ≠ [] := by
  match cs with
  | [] => simp [splitNl]
  | c :: cs =>
    simp only [splitNl]
    split
    · simp
    · split <;> simp

theorem splitNl_append (l : List Char) (hl : '\n' ∉ l) (rest : List Char) :
    splitNl (l ++ '\n' :: rest) = l :: splitNl rest := by
  induction l with
  | nil => simp [splitNl]
  | cons c l ih =>
    have hc : ¬(c = '\n') := fun h => hl (h ▸ List.mem_cons_self c l)
    have hl' : '\n' ∉ l := fun h => hl (List.mem_cons_of_mem c h)
    rw [List.cons_append]
    rw [show splitNl (c :: (l ++ '\n' :: rest))
        = (if c = '\n' then [] :: splitNl (l ++ '\n' :: rest)
           else match splitNl (l ++ '\n' :: rest) with
                | [] => [[c]]
                | p :: ps => (c :: p) :: ps) from rfl]
    rw [if_neg hc, ih hl']

theorem dropLastCr_id (l : List Char) (h : '\r' ∉ l) : dropLastCr l = l := by
  unfold dropLastCr
  rw [if_neg]
  intro hEq
  have hmem : '\r' ∈ l.getLast? := by rw [Option.mem_def]; exact hEq
  obtain ⟨hne, hx⟩ := List.mem_getLast?_eq_getLast hmem
  exact h (by rw [hx]; exact List.getLast_mem hne)

theorem rustLines_nil : rustLines [] = [] := by
  simp [rustLines, splitNl, rustLinesAux]

theorem rustLines_term (l : List Char) (hnl : '\n' ∉ l) (hcr : '\r' ∉ l) (rest : List Char) :
    rustLines (l ++ '\n' :: rest) = l :: rustLines rest := by
  unfold rustLines
  rw [splitNl_append l hnl]
  obtain ⟨q, ps, hq⟩ : ∃ q ps, splitNl rest = q :: ps := by
    cases h : splitNl rest with
    | nil => exact absurd h (splitNl_ne_nil rest)
    | cons q ps => exact ⟨q, ps, rfl⟩
  rw [hq]
  show dropLastCr l :: rustLinesAux (q :: ps) = l :: rustLinesAux (q :: ps)
  rw [dropLastCr_id l hcr]

theorem utf8Len_append (a b : List Char) : utf8Len (a ++ b) = utf8Len a + utf8Len b := by
  simp [utf8Len]

theorem tailLoop_eq (ls : List (List Char)) :
    ∀ off, tailLoop ls off = (ls.filterMap parse_jsonl_line, off + consumedLen ls) := by
  induction ls with
  | nil => intro off; simp [tailLoop, consumedLen]
  | cons l ls ih =>
    intro off
    simp only [tailLoop, ih]
    cases h : parse_jsonl_line l <;>
      simp [h, consumedLen, List.filterMap_cons] <;> omega

theorem dropBytes_append (a b : List Char) : dropBytes (utf8Len a) (a ++ b) = some b := by
  induction a with
  | nil => simp [dropBytes, utf8Len]
  | cons c a ih =>
    have hsz := Char.utf8Size_pos c
    have h1 : utf8Len (c :: a) = c.utf8Size + utf8Len a := by simp [utf8Len]
    obtain ⟨k, hk⟩ : ∃ k, utf8Len (c :: a) = k + 1 := ⟨utf8Len (c :: a) - 1, by omega⟩
    have hle : c.utf8Size ≤ k + 1 := by omega
    have h2 : k + 1 - c.utf8Size = utf8Len a := by omega
    rw [hk, List.cons_append]
    simp only [dropBytes, if_pos hle, h2]
    exact ih

theorem goodLog_consumed (f : List Char) (h : GoodLog f) :
    consumedLen (rustLines f) = utf8Len f := by
  induction h with
  | nil => simp [rustLines_nil, consumedLen, utf8Len]
  | line l rest hnl hcr hrest ih =>
    rw [rustLines_term l hnl hcr rest]
    have hn1 : ('\n').utf8Size = 1 := by decide
    simp only [consumedLen, List.map_cons, List.sum_cons] at ih ⊢
    rw [utf8Len_append]
    simp [utf8Len, hn1] at ih ⊢
    omega

theorem goodLog_initial (f : List Char) (h : GoodLog f) :
    initialRead f = ((rustLines f).filterMap parse_jsonl_line, utf8Len f) := by
  rw [initialRead, tailLoop_eq, goodLog_consumed f h]
  simp

theorem notifyStep_nothing (f : List Char) (off : Nat) (h : utf8Len f ≤ off) :
    notifyStep (some f) off = ([], off) := by
  simp [notifyStep, h]

theorem utf8Len_append_message (f : List Char) (m : ChatMessage) :
    utf8Len (append_message f m) = utf8Len f + (utf8Len (encodeLine m) + 1) := by
  have hn1 : utf8Len ['\n'] = 1 := by decide
  simp [append_message, utf8Len_append, hn1]

/-- A notification that arrives right after one message was appended to a
fully consumed log delivers exactly that message and advances the offset to
the new end of file. -/
theorem notifyStep_append (f : List Char) (m : ChatMessage) (hv : ValidMsg m) :
    notifyStep (some (append_message f m)) (utf8Len f)
      = ([m], utf8Len (append_message f m)) := by
  have hgt : ¬(utf8Len (append_message f m) ≤ utf8Len f) := by
    rw [utf8Len_append_message]; omega
  have hdrop : dropBytes (utf8Len f) (append_message f m) = some (encodeLine m ++ ['\n']) := by
    rw [show append_message f m = f ++ (encodeLine m ++ ['\n']) from by
      simp [append_message]]
    exact dropBytes_append f _
  have hlines : rustLines (encodeLine m ++ ['\n']) = [encodeLine m] := by
    rw [show (['\n'] : List Char) = '\n' :: [] from rfl,
      rustLines_term _ (encodeLine_no_nl m) (encodeLine_no_cr m) [], rustLines_nil]
  rw [notifyStep]
  simp only [if_neg hgt, hdrop, hlines, tailLoop_eq]
  simp [parse_encodeLine m hv, consumedLen, utf8Len_append_message]

theorem shTokens_enterq (cur : List Char) (iw : Bool) (cs : List Char) :
    shTokens false cur iw ('\x27' :: cs) = shTokens true cur true cs := by
  rw [shTokens.eq_def]; simp

theorem shTokens_exitq (cur : List Char) (iw : Bool) (cs : List Char) :
    shTokens true cur iw ('\x27' :: cs) = shTokens false cur iw cs := by
  rw [shTokens.eq_def]; simp

theorem shTokens_qchar (c : Char) (hc : ¬(c = '\x27')) (cur : List Char) (iw : Bool)
    (cs : List Char) :
    shTokens true cur iw (c :: cs) = shTokens true (cur ++ [c]) iw cs := by
  rw [shTokens.eq_def]; simp [hc]

theorem shTokens_flush (cur : List Char) (cs : List Char) :
    shTokens false cur true (' ' :: cs) = (shTokens false [] false cs).map (cur :: ·) := by
  rw [shTokens.eq_def]; simp

theorem shTokens_sep (cur : List Char) (cs : List Char) :
    shTokens false cur false (' ' :: cs) = shTokens false [] false cs := by
  rw [shTokens.eq_def]; simp

theorem shTokens_bslash (cur : List Char) (iw : Bool) (d : Char) (cs : List Char) :
    shTokens false cur iw ('\\' :: d :: cs) = shTokens false (cur ++ [d]) true cs := by
  rw [shTokens.eq_def]; simp

theorem shTokens_word (c : Char) (hc1 : ¬(c = '\x27')) (hc2 : ¬(c = ' '))
    (hc3 : ¬(c = '\\')) (cur : List Char) (iw : Bool) (cs : List Char) :
    shTokens false cur iw (c :: cs) = shTokens false (cur ++ [c]) true cs := by
  rw [shTokens.eq_def]; simp [hc1, hc2, hc3]

theorem shTokens_end (cur : List Char) :
    shTokens false cur true [] = some [cur] := by
  rw [shTokens.eq_def]; simp

/-- Inside single quotes every character except the quote itself passes
into the current word verbatim. -/
theorem shTokens_quoted (a : List Char) (ha : '\x27' ∉ a) :
    ∀ (cur : List Char) (iw : Bool) (cs : List Char),
      shTokens true cur iw (a ++ cs) = shTokens true (cur ++ a) iw cs := by
  induction a with
  | nil => intro cur iw cs; simp
  | cons c a ih =>
    intro cur iw cs
    have hc : ¬(c = '\x27') := fun h => ha (h ▸ List.mem_cons_self c a)
    have ha' : '\x27' ∉ a := fun h => ha (List.mem_cons_of_mem c h)
    rw [List.cons_append,
      show shTokens true cur iw (c :: (a ++ cs))
        = if c = '\x27' then shTokens false cur iw (a ++ cs)
          else shTokens true (cur ++ [c]) iw (a ++ cs) from rfl,
      if_neg hc, ih ha', List.append_assoc]
    rfl

/-- Consuming the escaped message inside an open quoted section appends the
original message to the current word and re-enters the quoted section. -/
theorem shTokens_escaped (m : List Char) :
    ∀ (cur : List Char) (cs : List Char),
      shTokens true cur true (shellEscape m ++ cs) = shTokens true (cur ++ m) true cs := by
  induction m with
  | nil => intro cur cs; simp [shellEscape]
  | cons c m ih =>
    intro cur cs
    by_cases hc : c = '\x27'
    · subst hc
      have h1 : shellEscape ('\x27' :: m)
          = '\x27' :: '\\' :: '\x27' :: '\x27' :: shellEscape m := by
        simp [shellEscape]
      rw [h1, List.cons_append, shTokens_exitq, List.cons_append, List.cons_append,
        List.cons_append, shTokens_bslash, shTokens_enterq, ih (cur ++ ['\x27']),
        List.append_assoc]
      rfl
    · have h1 : shellEscape (c :: m) = c :: shellEscape m := by
        simp [shellEscape, hc]
      rw [h1, List.cons_append,
        show shTokens true cur true (c :: (shellEscape m ++ cs))
          = if c = '\x27' then shTokens false cur true (shellEscape m ++ cs)
            else shTokens true (cur ++ [c]) true (shellEscape m ++ cs) from rfl,
        if_neg hc, ih (cur ++ [c]), List.append_assoc]
      rfl

/-- Full tokenization of the remote send command: provided the agent and
session ids hold no single quote, the shell sees exactly eight words, and
the last one is the original message text, whatever characters it holds. -/
theorem shTokenize_sendCmd (a s m : List Char) (ha : '\x27' ∉ a) (hs : '\x27' ∉ s) :
    shTokenize (sendCmd a s m)
      = some ["openclaw".data, "agent".data, "--agent".data, a,
              "--session-id".data, s, "--message".data, m] := by
  have hw1 : ("openclaw agent --agent ").data
      = 'o' :: 'p' :: 'e' :: 'n' :: 'c' :: 'l' :: 'a' :: 'w' :: ' '
        :: 'a' :: 'g' :: 'e' :: 'n' :: 't' :: ' '
        :: '-' :: '-' :: 'a' :: 'g' :: 'e' :: 'n' :: 't' :: ' ' :: [] := rfl
  have hw2 : (" --session-id ").data
      = ' ' :: '-' :: '-' :: 's' :: 'e' :: 's' :: 's' :: 'i' :: 'o' :: 'n'
        :: '-' :: 'i' :: 'd' :: ' ' :: [] := rfl
  have hw3 : (" --message ").data
      = ' ' :: '-' :: '-' :: 'm' :: 'e' :: 's' :: 's' :: 'a' :: 'g' :: 'e' :: ' ' :: [] := rfl
  rw [shTokenize, sendCmd, hw1, hw2, hw3]
  simp only [List.cons_append, List.nil_append, List.append_assoc]
  simp [shTokens_word, shTokens_flush, shTokens_sep, shTokens_enterq, shTokens_exitq,
    shTokens_end, shTokens_quoted a ha, shTokens_quoted s hs, shTokens_escaped m]

theorem goodLog_append {a b : List Char} (ha : GoodLog a) (hb : GoodLog b) :
    GoodLog (a ++ b) := by
  induction ha with
  | nil => simpa using hb
  | line l rest hnl hcr hrest ih =>
    rw [List.append_assoc, List.cons_append]
    exact GoodLog.line l (rest ++ b) hnl hcr ih

theorem goodLog_append_message (f : List Char) (m : ChatMessage) (hf : GoodLog f) :
    GoodLog (append_message f m) := by
  have hline : GoodLog (encodeLine m ++ '\n' :: []) :=
    GoodLog.line (encodeLine m) [] (encodeLine_no_nl m) (encodeLine_no_cr m) GoodLog.nil
  have : append_message f m = f ++ (encodeLine m ++ '\n' :: []) := by
    simp [append_message]
  rw [this]
  exact goodLog_append hf hline

theorem rustLines_append_goodLog (f : List Char) (hf : GoodLog f) (x : List Char) :
    rustLines (f ++ x) = rustLines f ++ rustLines x := by
  induction hf with
  | nil => simp [rustLines_nil]
  | line l rest hnl hcr hrest ih =>
    rw [List.append_assoc, List.cons_append, rustLines_term l hnl hcr,
      rustLines_term l hnl hcr, ih]
    simp

theorem rustLines_append_message (f : List Char) (m : ChatMessage) (hf : GoodLog f) :
    rustLines (append_message f m) = rustLines f ++ [encodeLine m] := by
  have h1 : append_message f m = f ++ (encodeLine m ++ '\n' :: []) := by
    simp [append_message]
  rw [h1, rustLines_append_goodLog f hf,
    rustLines_term _ (encodeLine_no_nl m) (encodeLine_no_cr m), rustLines_nil]

theorem load_session_append (f : List Char) (m : ChatMessage) (hf : GoodLog f)
    (hm : ValidMsg m) :
    load_session (some (append_message f m)) = load_session (some f) ++ [m] := by
  simp only [load_session, rustLines_append_message f m hf]
  rw [List.filterMap_append]
  simp [parse_encodeLine m hm]

theorem load_session_appendAll (ms : List ChatMessage) :
    ∀ f, GoodLog f → (∀ m ∈ ms, ValidMsg m) →
      load_session (some (appendAll f ms)) = load_session (some f) ++ ms := by
  induction ms with
  | nil => intro f _ _; simp [appendAll]
  | cons m ms ih =>
    intro f hf hv
    have hm : ValidMsg m := hv m (List.mem_cons_self m ms)
    have hv' : ∀ x ∈ ms, ValidMsg x := fun x hx => hv x (List.mem_cons_of_mem m hx)
    have h1 : appendAll f (m :: ms) = appendAll (append_message f m) ms := by
      simp [appendAll]
    rw [h1, ih (append_message f m) (goodLog_append_message f m hf) hv',
      load_session_append f m hf hm]
    simp

theorem deliverSeq_eq (ms : List ChatMessage) :
    ∀ f, (∀ m ∈ ms, ValidMsg m) →
      deliverSeq f (utf8Len f) ms = (appendAll f ms, utf8Len (appendAll f ms), ms) := by
  induction ms with
  | nil => intro f _; simp [deliverSeq, appendAll]
  | cons m ms ih =>
    intro f hv
    have hm : ValidMsg m := hv m (List.mem_cons_self m ms)
    have hv' : ∀ x ∈ ms, ValidMsg x := fun x hx => hv x (List.mem_cons_of_mem m hx)
    have h1 : appendAll f (m :: ms) = appendAll (append_message f m) ms := by
      simp [appendAll]
    simp only [deliverSeq, notifyStep_append f m hm, h1, ih (append_message f m) hv']
    simp

theorem getOffset_set (m : List (String × Nat)) (k : String) (v : Nat) :
    getOffset (setOffset m k v) k = some v := by
  simp [getOffset, setOffset]

theorem insertKey_mem (ks : List String) (k : String) (h : k ∈ ks) :
    insertKey ks k = ks := by
  simp [insertKey, h]

/-- Claim C3: round-trip law of the codec: for every valid ChatMessage
(user or assistant role, nonempty content), parsing the line the appender
serializes yields the message back. -/
theorem spec_c3_roundtrip (m : ChatMessage) (h : ValidMsg m) :
    parse_jsonl_line (encodeLine m) = some m :=
  parse_encodeLine m h

/-- Witness for C3 at the concrete message user/hi. -/
theorem spec_c3_roundtrip_witness :
    ValidMsg ⟨"user", "hi"⟩
      ∧ parse_jsonl_line (encodeLine ⟨"user", "hi"⟩) = some ⟨"user", "hi"⟩ :=
  ⟨by decide, spec_c3_roundtrip ⟨"user", "hi"⟩ (by decide)⟩

/-- Claim C1, evaluated at the failing input: the log starts empty with the
offset at 0; a 40-byte unterminated fragment of the encoded user/hi line is
written and a notification processed: zero messages are delivered but the
offset advances to 41 (fragment length plus one), although no line-break was
read — the spec says it must stay at the line boundary 0.  The writer then
completes the line: the file is the full 85-byte terminated line, and the
notification at offset 41 delivers zero messages and moves the offset to
the end of file, so the completed message is never delivered, although the
spec says it is delivered exactly once. -/
theorem spec_c1_partial_line_lost :
    notifyStep (some ((encodeLine ⟨"user", "hi"⟩).take 40)) 0 = ([], 41)
    ∧ notifyStep (some (append_message [] ⟨"user", "hi"⟩)) 41 = ([], 85)
    ∧ utf8Len ((encodeLine ⟨"user", "hi"⟩).take 40) = 40
    ∧ utf8Len (append_message [] ⟨"user", "hi"⟩) = 85
    ∧ parse_jsonl_line (encodeLine ⟨"user", "hi"⟩) = some ⟨"user", "hi"⟩ := by
  decide

/-- Counterexample to Claim C2 as stated: with one existing message in the
log, a first startWatch emits the replay; a second startWatch for the same,
already watched session is not a no-op — it emits the whole history a
second time. -/
theorem spec_c2_counterexample :
    "s" ∈ ((watch_session WatcherState.empty
        (some (append_message [] ⟨"user", "hi"⟩)) "s").1).watchers
    ∧ (watch_session WatcherState.empty
        (some (append_message [] ⟨"user", "hi"⟩)) "s").2 = [⟨"user", "hi"⟩]
    ∧ (watch_session
        (watch_session WatcherState.empty (some (append_message [] ⟨"user", "hi"⟩)) "s").1
        (some (append_message [] ⟨"user", "hi"⟩)) "s").2 = [⟨"user", "hi"⟩] := by
  decide

/-- Claim C2 as amended: a second startWatch call for an already watched
session is not a no-op: it re-emits the full replay of the current file,
leaves the registry key set unchanged (the handle is replaced, so at most
one watch per session remains), and resets the stored offset to the end of
the file; a message appended after the second call is still delivered
exactly once by the surviving watch's notification step. -/
theorem spec_c2_amended (st : WatcherState) (sid : String) (f : List Char)
    (m : ChatMessage) (hw : sid ∈ st.watchers) (hf : GoodLog f) (hm : ValidMsg m) :
    (watch_session st (some f) sid).2 = (rustLines f).filterMap parse_jsonl_line
    ∧ ((watch_session st (some f) sid).1).watchers = st.watchers
    ∧ getOffset ((watch_session st (some f) sid).1).fileOffsets sid = some (utf8Len f)
    ∧ (notifyStep (some (append_message f m)) (utf8Len f)).1 = [m] := by
  refine ⟨?_, ?_, ?_, ?_⟩
  · simp [watch_session, goodLog_initial f hf]
  · simp [watch_session, insertKey_mem st.watchers sid hw]
  · simp [watch_session, goodLog_initial f hf, getOffset_set]
  · rw [notifyStep_append f m hm]

/-- Witness for the amended C2 at a concrete watched state and message. -/
theorem spec_c2_amended_witness :
    "s" ∈ (WatcherState.mk ["s"] []).watchers
    ∧ GoodLog (append_message [] ⟨"user", "hi"⟩)
    ∧ ValidMsg ⟨"assistant", "yo"⟩
    ∧ (watch_session (WatcherState.mk ["s"] [])
          (some (append_message [] ⟨"user", "hi"⟩)) "s").2
        = (rustLines (append_message [] ⟨"user", "hi"⟩)).filterMap parse_jsonl_line := by
  have hf : GoodLog (append_message [] ⟨"user", "hi"⟩) := by
    have h := GoodLog.line (encodeLine ⟨"user", "hi"⟩) []
      (by decide) (by decide) GoodLog.nil
    simpa [append_message] using h
  exact ⟨by decide, hf, by decide,
    (spec_c2_amended (WatcherState.mk ["s"] []) "s" (append_message [] ⟨"user", "hi"⟩)
      ⟨"assistant", "yo"⟩ (by decide) hf (by decide)).1⟩

/-- Claim C4: with the watch offset at the end of the current file, a run
of appends, each followed by its change notification, delivers exactly the
appended messages in order; the final offset equals the final file length;
and a further notification with no new content delivers nothing and leaves
the offset unchanged. -/
theorem spec_c4_no_double_delivery (f : List Char) (ms : List ChatMessage)
    (hv : ∀ m ∈ ms, ValidMsg m) :
    (deliverSeq f (utf8Len f) ms).2.2 = ms
    ∧ (deliverSeq f (utf8Len f) ms).2.1 = utf8Len (deliverSeq f (utf8Len f) ms).1
    ∧ notifyStep (some (deliverSeq f (utf8Len f) ms).1) (deliverSeq f (utf8Len f) ms).2.1
        = ([], (deliverSeq f (utf8Len f) ms).2.1) := by
  rw [deliverSeq_eq ms f hv]
  exact ⟨rfl, rfl, notifyStep_nothing _ _ (Nat.le_refl _)⟩

/-- Witness for C4: two messages appended one at a time from an empty log
are delivered exactly once each, in order. -/
theorem spec_c4_no_double_delivery_witness :
    (∀ m ∈ [ChatMessage.mk "user" "hi", ChatMessage.mk "assistant" "yo"], ValidMsg m)
    ∧ (deliverSeq [] (utf8Len [])
        [ChatMessage.mk "user" "hi", ChatMessage.mk "assistant" "yo"]).2.2
      = [ChatMessage.mk "user" "hi", ChatMessage.mk "assistant" "yo"] :=
  ⟨by decide,
   (spec_c4_no_double_delivery [] [⟨"user", "hi"⟩, ⟨"assistant", "yo"⟩] (by decide)).1⟩

/-- Counterexample to Claim C5 as stated: a failed connect from the fresh
Disconnected session leaves the status Connecting, not the Error variant
the claim requires (the error is only returned to the caller). -/
theorem spec_c5_counterexample :
    (connect "/home/u" (fun _ => Except.error "refused") SshSession.new).1.status
        = ConnectionStatus.connecting
    ∧ isErrorStatus
        (connect "/home/u" (fun _ => Except.error "refused") SshSession.new).1.status
        = false
    ∧ (connect "/home/u" (fun _ => Except.error "refused") SshSession.new).2
        = Except.error "SSH connect failed: refused" :=
  ⟨rfl, rfl, rfl⟩

/-- Claim C5 as amended: disconnect() from any state yields Disconnected
and never fails, whatever the close result; a failed connect() returns the
error but leaves the state Connecting (the Error state is never entered);
and a successful connect() from any state, the error state included, yields
Connected. -/
theorem spec_c5_amended (st : SshSession) (home e : String)
    (close : Except String Unit) :
    (disconnect st close).status = ConnectionStatus.disconnected
    ∧ (connect home (fun _ => Except.error e) st).1.status = ConnectionStatus.connecting
    ∧ isErrorStatus (connect home (fun _ => Except.error e) st).1.status = false
    ∧ (connect home (fun _ => Except.error e) st).2
        = Except.error ("SSH connect failed: " ++ e)
    ∧ (connect home (fun _ => Except.ok ()) st).1.status = ConnectionStatus.connected := by
  refine ⟨rfl, ?_, ?_, ?_, ?_⟩ <;> simp [connect, isErrorStatus]

/-- Claim C6: parse_jsonl_line returns none (never an error) exactly when
the line does not decode to a record, the record's declared kind is not
"message", the body is missing or its role is neither user nor assistant,
or the concatenated text of the text-typed content segments is empty; and
any message it does return carries the record's role and the in-order,
separator-free concatenation of the text segments. -/
theorem spec_c6_parse_none_conditions :
    (∀ line : List Char, lineRecord line = none → parse_jsonl_line line = none)
    ∧ (∀ (line : List Char) (r : JsonlMessage), lineRecord line = some r →
        (parse_jsonl_line line = none ↔
          (r.msg_type ≠ "message"
            ∨ (match r.message with
               | none => True
               | some inner =>
                 (inner.role ≠ "user" ∧ inner.role ≠ "assistant")
                   ∨ concatTexts inner.content = ""))))
    ∧ (∀ (line : List Char) (m : ChatMessage), parse_jsonl_line line = some m →
        ∃ r inner, lineRecord line = some r ∧ r.message = some inner
          ∧ m = ⟨inner.role, concatTexts inner.content⟩) := by
  refine ⟨?_, ?_, ?_⟩
  · intro line h
    simp [parse_jsonl_line, h]
  · intro line r h
    simp only [parse_jsonl_line, h]
    by_cases ht : r.msg_type = "message"
    · simp only [ht, ne_eq, not_true_eq_false, if_false, false_or]
      cases hmsg : r.message with
      | none => simp
      | some inner =>
        by_cases hrole : inner.role ≠ "user" ∧ inner.role ≠ "assistant"
        · simp [hrole]
        · simp only [if_neg hrole]
          by_cases htext : concatTexts inner.content = ""
          · simp [htext, hrole]
          · simp [htext, hrole]
    · have ht2 : r.msg_type ≠ "message" := ht
      simp [ht2]
  · intro line m h
    simp only [parse_jsonl_line] at h
    cases hrec : lineRecord line with
    | none => simp [hrec] at h
    | some r =>
      simp only [hrec] at h
      by_cases ht : r.msg_type ≠ "message"
      · rw [if_pos ht] at h; simp at h
      · rw [if_neg ht] at h
        cases hmsg : r.message with
        | none => simp [hmsg] at h
        | some inner =>
          simp only [hmsg] at h
          by_cases hrole : inner.role ≠ "user" ∧ inner.role ≠ "assistant"
          · rw [if_pos hrole] at h; simp at h
          · rw [if_neg hrole] at h
            by_cases htext : concatTexts inner.content = ""
            · simp [htext] at h
            · simp only [htext, if_false] at h
              exact ⟨r, inner, rfl, hmsg, by
                simpa using h.symm⟩

/-- Witness for C6: a decodable record whose kind is "note" rather than
"message" parses to none. -/
theorem spec_c6_parse_none_conditions_witness :
    lineRecord (writeJson (Json.obj [("type", Json.str "note")]))
        = some ⟨"note", none⟩
    ∧ parse_jsonl_line (writeJson (Json.obj [("type", Json.str "note")])) = none :=
  ⟨by decide,
   (spec_c6_parse_none_conditions.2.1 (writeJson (Json.obj [("type", Json.str "note")]))
      ⟨"note", none⟩ (by decide)).mpr (Or.inl (by decide))⟩

/-- Claim C7: tokenizing the remote send command built by
send_message_remote, for any message text (quotes included) and any agent
and session ids free of single quotes, yields the agent binary invocation
with the original message as one single intact final argument. -/
theorem spec_c7_shell_escaping (a s m : List Char)
    (ha : '\x27' ∉ a) (hs : '\x27' ∉ s) :
    shTokenize (sendCmd a s m)
      = some ["openclaw".data, "agent".data, "--agent".data, a,
              "--session-id".data, s, "--message".data, m] :=
  shTokenize_sendCmd a s m ha hs

/-- Witness for C7 at a message containing a single quote. -/
theorem spec_c7_shell_escaping_witness :
    '\x27' ∉ ("main").data
    ∧ '\x27' ∉ ("abc").data
    ∧ shTokenize (sendCmd ("main").data ("abc").data
          (("it").data ++ '\x27' :: ("s ok").data))
      = some ["openclaw".data, "agent".data, "--agent".data, ("main").data,
              "--session-id".data, ("abc").data, "--message".data,
              ("it").data ++ '\x27' :: ("s ok").data] :=
  ⟨by decide, by decide,
   spec_c7_shell_escaping ("main").data ("abc").data
     (("it").data ++ '\x27' :: ("s ok").data) (by decide) (by decide)⟩

/-- Claim C8: reading a session whose log file does not exist succeeds with
an empty history; when the file exists every line is parsed in file order
with undecodable lines dropped; and for a log produced by appending valid
messages the full history read back is exactly those messages in order. -/
theorem spec_c8_load_session :
    load_session none = []
    ∧ (∀ content, load_session (some content)
        = (rustLines content).filterMap parse_jsonl_line)
    ∧ (∀ ms : List ChatMessage, (∀ m ∈ ms, ValidMsg m) →
        load_session (some (appendAll [] ms)) = ms) := by
  refine ⟨rfl, fun content => rfl, fun ms hv => ?_⟩
  have h := load_session_appendAll ms [] GoodLog.nil hv
  simpa [load_session, rustLines_nil] using h

/-- Witness for C8: one appended user message reads back as itself. -/
theorem spec_c8_load_session_witness :
    (∀ m ∈ [ChatMessage.mk "user" "hi"], ValidMsg m)
    ∧ load_session (some (appendAll [] [ChatMessage.mk "user" "hi"]))
        = [ChatMessage.mk "user" "hi"] :=
  ⟨by decide, spec_c8_load_session.2.2 [⟨"user", "hi"⟩] (by decide)⟩

/-- Claim C9: the outcome of connect is independent of the configured key
path: the destination is built from user, host and port only, and two
configurations differing only in key_path produce the same destination,
the same returned result, and the same resulting status and session
presence under any handshake behaviour. -/
theorem spec_c9_keypath_independent (home : String)
    (hs : String → Except String Unit) (st : SshSession) (kp1 kp2 : String) :
    connectDest { st.config with key_path := kp1 }
        = connectDest { st.config with key_path := kp2 }
    ∧ (connect home hs { st with config := { st.config with key_path := kp1 } }).1.status
        = (connect home hs { st with config := { st.config with key_path := kp2 } }).1.status
    ∧ (connect home hs { st with config := { st.config with key_path := kp1 } }).1.session
        = (connect home hs { st with config := { st.config with key_path := kp2 } }).1.session
    ∧ (connect home hs { st with config := { st.config with key_path := kp1 } }).2
        = (connect home hs { st with config := { st.config with key_path := kp2 } }).2 := by
  refine ⟨rfl, ?_, ?_, ?_⟩ <;>
    · simp only [connect, connectDest]
      cases hs ("ssh://" ++ st.config.user ++ "@" ++ st.config.host ++ ":"
          ++ toString st.config.port) <;> rfl

/-- Claim C10: a local-mode send is not atomic on agent failure: the user
message is appended before the agent is invoked, so when the invocation
fails the command returns that failure while the log already ends with the
user message and no assistant message was appended. -/
theorem spec_c10_send_not_atomic (f : List Char) (message e : String) :
    (cmd_send_message_local f message (Except.error e)).1 = Except.error e
    ∧ (cmd_send_message_local f message (Except.error e)).2
        = append_message f ⟨"user", message⟩
    ∧ (GoodLog f → message ≠ "" →
        load_session (some (cmd_send_message_local f message (Except.error e)).2)
          = load_session (some f) ++ [⟨"user", message⟩]) := by
  refine ⟨rfl, rfl, fun hf hmsg => ?_⟩
  exact load_session_append f ⟨"user", message⟩ hf ⟨Or.inl rfl, hmsg⟩

/-- Witness for C10 at an empty log and the message hi. -/
theorem spec_c10_send_not_atomic_witness :
    (cmd_send_message_local [] "hi" (Except.error "agent down")).1
        = Except.error "agent down"
    ∧ GoodLog ([] : List Char)
    ∧ ("hi" : String) ≠ ""
    ∧ load_session (some (cmd_send_message_local [] "hi" (Except.error "agent down")).2)
        = load_session (some []) ++ [⟨"user", "hi"⟩] := by
  refine ⟨(spec_c10_send_not_atomic [] "hi" "agent down").1, GoodLog.nil, by decide, ?_⟩
  exact (spec_c10_send_not_atomic [] "hi" "agent down").2.2 GoodLog.nil (by decide)

end OpenclawChat
